import Mathlib

/-!
Shallow embedding of the click-to-sort table logic in
`weekly_app/static/js/table_sort.js` (the file under `unnamed/part_000`
is the same parser and comparator specialised to a single table).

Modelling conventions:
* a table body row is a `Row`: its list of cell texts plus the
  `__rowIndex` tag attached at load time;
* `parseExcelValue` mirrors the JS function of the same name; the JS
  `Number(·)` string coercion is modelled by `jsStringToNumber`
  (decimal literals, signs, exponents and `Infinity`; the rarely used
  `0x`/`0o`/`0b` literal forms are not modelled, and `localeCompare` is
  modelled as code-point string comparison);
* `rows.sort(comparator)` is modelled by `sortRows`, a stable insertion
  sort: each row is inserted before the first earlier row the comparator
  orders strictly after it.  For a consistent comparator this is the
  unique stable-sort result required of `Array.prototype.sort`, so there
  the model coincides with every conforming engine.  The comparator here
  is inconsistent on number/text pairs (it answers negative in both
  argument orders), and for an inconsistent comparator ECMAScript leaves
  the sort order implementation-defined: on columns mixing number- and
  text-typed cells, `sortRows` is only one possible resolution and real
  engines produce other permutations, so no conclusion about the
  program's output on such columns is drawn from `sortRows` alone;
* the click handler (direction lookup, sort, re-attachment via
  `appendChild`, direction toggle) is `click` on a `TableState`.
-/

/-- Sort direction, the values of `sortState[colIndex]`. -/
inductive Dir
  | asc
  | desc
deriving DecidableEq

/-- A JS number that is not NaN: a finite value or a signed infinity. -/
inductive JsNum
  | finite (q : ℚ)
  | posInf
  | negInf
deriving DecidableEq

/-- The `type` field of the objects returned by `parseExcelValue`. -/
inductive PType
  | number
  | text
  | blank
deriving DecidableEq

/-- The `{ type, value }` object returned by `parseExcelValue`. -/
inductive ParsedValue
  | number (v : JsNum)
  | text (s : String)
  | blank
deriving DecidableEq

/-- The `type` field of a `ParsedValue`. -/
def ParsedValue.ptype : ParsedValue → PType
  | .number _ => PType.number
  | .text _ => PType.text
  | .blank => PType.blank

/-- A table body row: its cell texts and the `__rowIndex` tag cached at
load time. -/
structure Row where
  cells : List String
  rowIndex : Nat
deriving DecidableEq

/-- JS whitespace as used by `String.prototype.trim` and `Number`
(the common characters; exotic Unicode space characters behave the
same way and are omitted). -/
def isJsSpace (c : Char) : Bool :=
  c = ' ' || c = '\t' || c = '\n' || c = '\r' || c = '\u000B' ||
  c = '\u000C' || c = '\u00A0' || c = '\uFEFF'

/-- Drop JS whitespace from both ends of a character list. -/
def trimChars (cs : List Char) : List Char :=
  ((cs.dropWhile isJsSpace).reverse.dropWhile isJsSpace).reverse

/-- `text.trim()`. -/
def jsTrim (s : String) : String :=
  String.mk (trimChars s.toList)

/-- `raw.replace(/₹|,|%/g, "")`. -/
def stripSyms (s : String) : String :=
  String.mk (s.toList.filter (fun c => !(c = '₹' || c = ',' || c = '%')))

/-- `raw.toLowerCase()` (ASCII letters; the cells of interest are
ASCII). -/
def jsToLower (s : String) : String :=
  String.mk (s.toList.map Char.toLower)

/-- Numeric value of a digit list, most significant first. -/
def digitsVal (cs : List Char) : Nat :=
  cs.foldl (fun a c => 10 * a + (c.toNat - 48)) 0

/-- Parse the optional exponent tail of a JS decimal literal; `none`
when the tail is not a valid (possibly empty) exponent part. -/
def parseExponent : List Char → Option Int
  | [] => some 0
  | c :: rest =>
    if c = 'e' || c = 'E' then
      match rest with
      | '+' :: ds =>
        if ds ≠ [] ∧ ds.all Char.isDigit then some (digitsVal ds) else none
      | '-' :: ds =>
        if ds ≠ [] ∧ ds.all Char.isDigit then some (-(digitsVal ds : Int)) else none
      | ds =>
        if ds ≠ [] ∧ ds.all Char.isDigit then some (digitsVal ds) else none
    else none

/-- The rational `m * 10 ^ e`, built from a decimal mantissa and
exponent. -/
def decToRat (m : Nat) (e : Int) : ℚ :=
  if 0 ≤ e then mkRat ((m * 10 ^ e.toNat : Nat) : Int) 1
  else mkRat (m : Int) (10 ^ (-e).toNat)

/-- Parse an unsigned JS decimal literal (digits, optional fraction,
optional exponent); `none` when the characters are not such a
literal.  The value is `digits * 10 ^ (exponent - fraction length)`. -/
def parseDecimal (cs : List Char) : Option ℚ :=
  let intDigits := cs.takeWhile Char.isDigit
  let rest1 := cs.dropWhile Char.isDigit
  match rest1 with
  | '.' :: rest2 =>
    let fracDigits := rest2.takeWhile Char.isDigit
    let rest3 := rest2.dropWhile Char.isDigit
    if intDigits = [] ∧ fracDigits = [] then none
    else
      match parseExponent rest3 with
      | some e =>
        some (decToRat (digitsVal (intDigits ++ fracDigits))
          (e - fracDigits.length))
      | none => none
  | _ =>
    if intDigits = [] then none
    else
      match parseExponent rest1 with
      | some e => some (decToRat (digitsVal intDigits) e)
      | none => none

/-- Parse a signed JS numeric literal body. -/
def parseSigned (cs : List Char) : Option JsNum :=
  match cs with
  | '+' :: rest => parseUnsigned rest false
  | '-' :: rest => parseUnsigned rest true
  | _ => parseUnsigned cs false
where
  /-- The body after the optional sign: `Infinity` or a decimal
  literal. -/
  parseUnsigned (cs : List Char) (neg : Bool) : Option JsNum :=
    if cs = "Infinity".toList then
      some (if neg then JsNum.negInf else JsNum.posInf)
    else
      match parseDecimal cs with
      | some q => some (JsNum.finite (if neg then -q else q))
      | none => none

/-- The JS `Number(s)` string coercion: `none` models NaN. -/
def jsStringToNumber (s : String) : Option JsNum :=
  let cs := trimChars s.toList
  match cs with
  | [] => some (JsNum.finite 0)
  | _ => parseSigned cs

/-- `parseExcelValue(text = "")` from `table_sort.js`. -/
def parseExcelValue (text : String := "") : ParsedValue :=
  let raw := jsTrim text
  if raw = "" ∨ raw = "-" ∨ raw = "—" then ParsedValue.blank
  else
    let cleaned := stripSyms raw
    match jsStringToNumber cleaned with
    | some n => ParsedValue.number n
    | none => ParsedValue.text (jsToLower raw)

/-- `rowA.cells[colIndex]?.innerText`, with a missing cell feeding the
default parameter `""` of `parseExcelValue`. -/
def cellText (r : Row) (col : Nat) : String :=
  r.cells.getD col ""

/-- Sign of the JS subtraction `x - y` for two non-NaN numbers that are
known distinct at the call sites (equal arguments return 0). -/
def jsNumCompare : JsNum → JsNum → Int
  | .finite a, .finite b => if a < b then -1 else if b < a then 1 else 0
  | .finite _, .posInf => -1
  | .finite _, .negInf => 1
  | .posInf, .finite _ => 1
  | .posInf, .posInf => 0
  | .posInf, .negInf => 1
  | .negInf, .finite _ => -1
  | .negInf, .posInf => -1
  | .negInf, .negInf => 0

/-- Lexicographic code-point comparison of character lists. -/
def charListCompare : List Char → List Char → Int
  | [], [] => 0
  | [], _ :: _ => -1
  | _ :: _, [] => 1
  | c :: cs, d :: ds =>
    if c < d then -1 else if d < c then 1 else charListCompare cs ds

/-- `a.localeCompare(b)`, modelled as code-point comparison (a fixed
locale gives some consistent total order; this is the usual one for the
lower-cased ASCII cell texts). -/
def jsStrCompare (a b : String) : Int :=
  charListCompare a.toList b.toList

/-- The body of the `rows.sort` comparator, after both cells have been
parsed: `A`/`B` the parsed values, `ia`/`ib` the `__rowIndex` tags.
Mirrors the branch structure of the JS comparator: both-number,
type-mismatch (`A.type === "blank" ? 1 : -1`), then the text branch,
which both-text and both-blank reach (for two blanks
`null !== null` is false, so they fall through to the index
tie-break). -/
def cmpPV (dir : Dir) (A B : ParsedValue) (ia ib : Int) : Int :=
  match A, B with
  | .number x, .number y =>
    if x ≠ y then
      (if dir = Dir.desc then jsNumCompare y x else jsNumCompare x y)
    else ia - ib
  | .text s, .text t =>
    if s ≠ t then
      (if dir = Dir.desc then jsStrCompare t s else jsStrCompare s t)
    else ia - ib
  | .blank, .blank => ia - ib
  | .blank, _ => 1
  | _, _ => -1

/-- The `rows.sort` comparator: parse both rows' cell at `col`, then
compare. -/
def compareRows (dir : Dir) (col : Nat) (a b : Row) : Int :=
  cmpPV dir (parseExcelValue (cellText a col)) (parseExcelValue (cellText b col))
    (a.rowIndex : Int) (b.rowIndex : Int)

/-- Stable insertion step: `x` is placed before the first element the
comparator orders strictly after it (`cmp y x > 0`), hence after every
element that ties with it.  One resolution of the sort; see the note on
`sortRows` for its scope of validity. -/
def insertRow (cmp : Row → Row → Int) (x : Row) : List Row → List Row
  | [] => [x]
  | y :: ys => if 0 < cmp y x then x :: y :: ys else y :: insertRow cmp x ys

/-- `rows.sort(cmp)` as a stable sort: rows are inserted in their
current order, later rows landing after the rows they tie with.  This
is the engine-independent result whenever `cmp` is consistent on the
rows being sorted; on number/text-mixed columns the comparator is
inconsistent, the ECMAScript order is implementation-defined, and this
definition is only one of the possible outcomes. -/
def sortRows (cmp : Row → Row → Int) (l : List Row) : List Row :=
  l.foldl (fun acc x => insertRow cmp x acc) []

/-- `sortState[colIndex] = "desc"` for every column at initialisation. -/
def initState : Nat → Dir := fun _ => Dir.desc

/-- The mutable state owned by one table: its body rows (in DOM order)
and the per-column `sortState`. -/
structure TableState where
  body : List Row
  sortState : Nat → Dir

/-- `direction === "desc" ? "asc" : "desc"`. -/
def toggle : Dir → Dir
  | Dir.desc => Dir.asc
  | Dir.asc => Dir.desc

/-- One header click on column `col`: read the direction, sort the rows
(all body rows when the table has a `<thead>`, all but the embedded
header row otherwise), re-attach — `appendChild` moves each sorted row
to the end, so an embedded header row stays at position 0 — and toggle
the direction for `col`. -/
def click (hasThead : Bool) (col : Nat) (ts : TableState) : TableState :=
  let dir := ts.sortState col
  let newBody :=
    if hasThead then sortRows (compareRows dir col) ts.body
    else
      match ts.body with
      | [] => []
      | h :: rest => h :: sortRows (compareRows dir col) rest
  { body := newBody
    sortState := fun c => if c = col then toggle dir else ts.sortState c }

/-- The load-time tagging: row `i` of the body gets `__rowIndex = i`. -/
def tagRows (cellRows : List (List String)) : List Row :=
  cellRows.enum.map (fun p => { cells := p.2, rowIndex := p.1 })

/-- A sequence of prior header clicks (on a table with a `<thead>`). -/
def applyClicks (cols : List Nat) (ts : TableState) : TableState :=
  cols.foldl (fun t c => click true c t) ts


/-- The pair of parsed values on which the comparator's type-mismatch
branch is order-inconsistent: one cell number-typed, the other
text-typed. -/
def mixedNT (A B : ParsedValue) : Prop :=
  (A.ptype = PType.number ∧ B.ptype = PType.text) ∨
  (A.ptype = PType.text ∧ B.ptype = PType.number)

instance (A B : ParsedValue) : Decidable (mixedNT A B) := by
  unfold mixedNT; infer_instance

/-- The non-strict order induced by a comparator, as `Array.prototype.sort`
reads it: `cmp a b ≤ 0` means `a` need not be placed after `b`. -/
def leC (cmp : Row → Row → Int) (a b : Row) : Prop := cmp a b ≤ 0

/-! ### Basic facts about the two sign-comparison helpers -/

theorem jsNumCompare_neg (x y : JsNum) : jsNumCompare x y = - jsNumCompare y x := by
  cases x <;> cases y <;> simp only [jsNumCompare] <;> try norm_num
  case finite.finite a b =>
    rcases lt_trichotomy a b with h | h | h
    · rw [if_pos h, if_neg (lt_asymm h), if_pos h]
    · subst h; rw [if_neg (lt_irrefl a), if_neg (lt_irrefl a)]; norm_num
    · rw [if_neg (lt_asymm h), if_pos h, if_pos h]; norm_num

theorem jsNumCompare_eq_zero (x y : JsNum) : jsNumCompare x y = 0 ↔ x = y := by
  cases x <;> cases y <;> simp only [jsNumCompare] <;> try simp
  case finite.finite a b =>
    constructor
    · intro h
      rcases lt_trichotomy a b with h' | h' | h'
      · rw [if_pos h'] at h; norm_num at h
      · exact h'
      · rw [if_neg (lt_asymm h'), if_pos h'] at h; norm_num at h
    · intro h
      cases h
      rw [if_neg (lt_irrefl a), if_neg (lt_irrefl a)]

theorem jsNumCompare_trans {x y z : JsNum} (h1 : jsNumCompare x y < 0)
    (h2 : jsNumCompare y z < 0) : jsNumCompare x z < 0 := by
  cases x <;> cases y <;> cases z <;>
    simp only [jsNumCompare] at * <;> try norm_num at *
  case finite.finite.finite a b c =>
    rcases lt_trichotomy a b with hab | hab | hab
    · rcases lt_trichotomy b c with hbc | hbc | hbc
      · rw [if_pos (lt_trans hab hbc)]; norm_num
      · subst hbc; rw [if_pos hab]; norm_num
      · rw [if_neg (lt_asymm hbc), if_pos hbc] at h2; norm_num at h2
    · subst hab
      rcases lt_trichotomy a c with hac | hac | hac
      · rw [if_pos hac]; norm_num
      · subst hac; rw [if_neg (lt_irrefl a)] at h1 h2; norm_num at h1
      · rw [if_neg (lt_asymm hac), if_pos hac] at h2; norm_num at h2
    · rw [if_neg (lt_asymm hab), if_pos hab] at h1; norm_num at h1

theorem charListCompare_neg : ∀ x y : List Char,
    charListCompare x y = - charListCompare y x := by
  intro x
  induction x with
  | nil => intro y; cases y <;> norm_num [charListCompare]
  | cons c cs ih =>
    intro y
    cases y with
    | nil => norm_num [charListCompare]
    | cons d ds =>
      simp only [charListCompare]
      rcases lt_trichotomy c d with h | h | h
      · rw [if_pos h, if_neg (lt_asymm h), if_pos h]
      · subst h
        simp only [if_neg (lt_irrefl c)]
        exact ih ds
      · rw [if_neg (lt_asymm h), if_pos h, if_pos h]
        norm_num

theorem charListCompare_eq_zero : ∀ x y : List Char,
    charListCompare x y = 0 ↔ x = y := by
  intro x
  induction x with
  | nil => intro y; cases y <;> simp [charListCompare]
  | cons c cs ih =>
    intro y
    cases y with
    | nil => simp [charListCompare]
    | cons d ds =>
      simp only [charListCompare]
      rcases lt_trichotomy c d with h | h | h
      · rw [if_pos h]
        simp only [List.cons.injEq]
        constructor
        · intro hh; norm_num at hh
        · rintro ⟨h1, _⟩; exact absurd h1 (ne_of_lt h)
      · subst h
        rw [if_neg (lt_irrefl c), if_neg (lt_irrefl c)]
        simp [ih ds]
      · rw [if_neg (lt_asymm h), if_pos h]
        simp only [List.cons.injEq]
        constructor
        · intro hh; norm_num at hh
        · rintro ⟨h1, _⟩; exact absurd h1.symm (ne_of_lt h)

theorem charListCompare_trans : ∀ x y z : List Char,
    charListCompare x y < 0 → charListCompare y z < 0 →
    charListCompare x z < 0 := by
  intro x
  induction x with
  | nil =>
    intro y z h1 h2
    cases y with
    | nil => simp [charListCompare] at h1
    | cons d ds =>
      cases z with
      | nil => norm_num [charListCompare] at h2
      | cons e es => norm_num [charListCompare]
  | cons c cs ih =>
    intro y z h1 h2
    cases y with
    | nil => norm_num [charListCompare] at h1
    | cons d ds =>
      cases z with
      | nil => norm_num [charListCompare] at h2
      | cons e es =>
        simp only [charListCompare] at h1 h2 ⊢
        rcases lt_trichotomy c d with hcd | hcd | hcd
        · rcases lt_trichotomy d e with hde | hde | hde
          · rw [if_pos (lt_trans hcd hde)]; norm_num
          · subst hde; rw [if_pos hcd]; norm_num
          · rw [if_neg (lt_asymm hde), if_pos hde] at h2; norm_num at h2
        · subst hcd
          rcases lt_trichotomy c e with hce | hce | hce
          · rw [if_pos hce]; norm_num
          · subst hce
            rw [if_neg (lt_irrefl c)] at h1 h2 ⊢
            rw [if_neg (lt_irrefl c)] at h1 h2 ⊢
            exact ih ds es h1 h2
          · rw [if_neg (lt_asymm hce), if_pos hce] at h2; norm_num at h2
        · rw [if_neg (lt_asymm hcd), if_pos hcd] at h1; norm_num at h1

theorem jsStrCompare_neg (x y : String) : jsStrCompare x y = - jsStrCompare y x :=
  charListCompare_neg x.toList y.toList

theorem jsStrCompare_eq_zero (x y : String) : jsStrCompare x y = 0 ↔ x = y := by
  unfold jsStrCompare
  rw [charListCompare_eq_zero]
  constructor
  · intro h
    cases x
    cases y
    exact congrArg String.mk (by simpa [String.toList] using h)
  · intro h
    rw [h]

theorem jsStrCompare_trans {x y z : String} (h1 : jsStrCompare x y < 0)
    (h2 : jsStrCompare y z < 0) : jsStrCompare x z < 0 :=
  charListCompare_trans x.toList y.toList z.toList h1 h2

/-! ### Comparator case analysis -/

theorem mixedNT_comm {A B : ParsedValue} (h : mixedNT A B) : mixedNT B A := by
  rcases h with ⟨h1, h2⟩ | ⟨h1, h2⟩
  · exact Or.inr ⟨h2, h1⟩
  · exact Or.inl ⟨h2, h1⟩

theorem cmpPV_mixed (dir : Dir) (A B : ParsedValue) (ia ib : Int)
    (h : mixedNT A B) : cmpPV dir A B ia ib = -1 := by
  cases A <;> cases B <;>
    simp only [mixedNT, ParsedValue.ptype, and_self, false_and, and_false,
      or_self, false_or, or_false] at h <;>
    first
      | rfl
      | (exfalso; revert h; decide)

theorem cmpPV_antisymm (dir : Dir) (A B : ParsedValue) (ia ib : Int)
    (h : ¬ mixedNT A B) : cmpPV dir A B ia ib = - cmpPV dir B A ib ia := by
  cases A <;> cases B <;> simp only [cmpPV] <;> try omega
  case number.number x y =>
    by_cases hxy : x = y
    · subst hxy
      rw [if_neg (not_not_intro rfl), if_neg (not_not_intro rfl)]
      omega
    · rw [if_pos hxy, if_pos (Ne.symm hxy)]
      cases dir
      · rw [if_neg (by decide : ¬ (Dir.asc = Dir.desc)),
          if_neg (by decide : ¬ (Dir.asc = Dir.desc))]
        exact jsNumCompare_neg x y
      · rw [if_pos rfl, if_pos rfl]
        exact jsNumCompare_neg y x
  case number.text x s =>
    exact absurd (Or.inl ⟨rfl, rfl⟩) h
  case text.number s x =>
    exact absurd (Or.inr ⟨rfl, rfl⟩) h
  case text.text s t =>
    by_cases hst : s = t
    · subst hst
      rw [if_neg (not_not_intro rfl), if_neg (not_not_intro rfl)]
      omega
    · rw [if_pos hst, if_pos (Ne.symm hst)]
      cases dir
      · rw [if_neg (by decide : ¬ (Dir.asc = Dir.desc)),
          if_neg (by decide : ¬ (Dir.asc = Dir.desc))]
        exact jsStrCompare_neg s t
      · rw [if_pos rfl, if_pos rfl]
        exact jsStrCompare_neg t s

theorem cmpPV_ne_zero (dir : Dir) (A B : ParsedValue) (ia ib : Int)
    (h : ¬ mixedNT A B) (hab : ia ≠ ib) : cmpPV dir A B ia ib ≠ 0 := by
  cases A <;> cases B <;> simp only [cmpPV] <;> try omega
  case number.number x y =>
    by_cases hxy : x = y
    · subst hxy
      rw [if_neg (not_not_intro rfl)]
      omega
    · rw [if_pos hxy]
      cases dir
      · rw [if_neg (by decide : ¬ (Dir.asc = Dir.desc))]
        intro h0
        exact hxy ((jsNumCompare_eq_zero x y).mp h0)
      · rw [if_pos rfl]
        intro h0
        exact hxy (((jsNumCompare_eq_zero y x).mp h0).symm)
  case text.text s t =>
    by_cases hst : s = t
    · subst hst
      rw [if_neg (not_not_intro rfl)]
      omega
    · rw [if_pos hst]
      cases dir
      · rw [if_neg (by decide : ¬ (Dir.asc = Dir.desc))]
        intro h0
        exact hst ((jsStrCompare_eq_zero s t).mp h0)
      · rw [if_pos rfl]
        intro h0
        exact hst (((jsStrCompare_eq_zero t s).mp h0).symm)

theorem cmpPV_refl (dir : Dir) (A : ParsedValue) (ia ib : Int) :
    cmpPV dir A A ia ib = ia - ib := by
  cases A <;> simp [cmpPV]

theorem cmpPV_blank_le {dir : Dir} {B : ParsedValue} {ia ib : Int}
    (h : cmpPV dir ParsedValue.blank B ia ib ≤ 0) : B = ParsedValue.blank := by
  cases B <;> first | rfl | (exfalso; simp only [cmpPV] at h; omega)

/-- Shared argument for the same-type comparator branches (numbers with
`jsNumCompare`, texts with `jsStrCompare`): if the branch orders `z`
strictly after `x` and not after `w`, it does not order `x` after
`w`. -/
theorem signCase_L1 {α : Type} [DecidableEq α] (f : α → α → Int) (dir : Dir)
    (hneg : ∀ a b, f a b = - f b a)
    (hzero : ∀ a b, f a b = 0 ↔ a = b)
    (htrans : ∀ {a b c}, f a b < 0 → f b c < 0 → f a c < 0)
    (z x w : α) (iz ix iw : Int)
    (h1 : 0 < (if z ≠ x then (if dir = Dir.desc then f x z else f z x) else iz - ix))
    (h2 : (if z ≠ w then (if dir = Dir.desc then f w z else f z w) else iz - iw) ≤ 0) :
    (if x ≠ w then (if dir = Dir.desc then f w x else f x w) else ix - iw) ≤ 0 := by
  have gneg : ∀ a b : α, (if dir = Dir.desc then f b a else f a b) =
      - (if dir = Dir.desc then f a b else f b a) := by
    intro a b
    cases dir
    · rw [if_neg (by decide : ¬ (Dir.asc = Dir.desc)),
        if_neg (by decide : ¬ (Dir.asc = Dir.desc))]
      exact hneg a b
    · rw [if_pos rfl, if_pos rfl]
      exact hneg b a
  have gzero : ∀ a b : α, (if dir = Dir.desc then f b a else f a b) = 0 → a = b := by
    intro a b h0
    cases dir
    · rw [if_neg (by decide : ¬ (Dir.asc = Dir.desc))] at h0
      exact (hzero a b).mp h0
    · rw [if_pos rfl] at h0
      exact ((hzero b a).mp h0).symm
  have gtrans : ∀ a b c : α, (if dir = Dir.desc then f b a else f a b) < 0 →
      (if dir = Dir.desc then f c b else f b c) < 0 →
      (if dir = Dir.desc then f c a else f a c) < 0 := by
    intro a b c ha hb
    cases dir
    · rw [if_neg (by decide : ¬ (Dir.asc = Dir.desc))] at ha hb ⊢
      exact htrans ha hb
    · rw [if_pos rfl] at ha hb ⊢
      exact htrans hb ha
  by_cases hxw : x = w
  · subst hxw
    rw [if_neg (not_not_intro rfl)]
    by_cases hzx : z = x
    · subst hzx
      rw [if_neg (not_not_intro rfl)] at h1 h2
      omega
    · rw [if_pos hzx] at h1 h2
      omega
  · rw [if_pos hxw]
    by_cases hzx : z = x
    · subst hzx
      rw [if_pos hxw] at h2
      rw [if_neg (not_not_intro rfl)] at h1
      exact h2
    · rw [if_pos hzx] at h1
      by_cases hzw : z = w
      · subst hzw
        have := gneg x z
        omega
      · rw [if_pos hzw] at h2
        have hzw' : (if dir = Dir.desc then f w z else f z w) < 0 := by
          rcases lt_or_eq_of_le h2 with h | h
          · exact h
          · exact absurd (gzero z w h) hzw
        have hxz : (if dir = Dir.desc then f z x else f x z) < 0 := by
          have := gneg x z
          omega
        have := gtrans x z w hxz hzw'
        omega

/-- The key ordering fact behind every sortedness proof below: if the
comparator puts `z` strictly after `x`, then anything `z` is not after,
`x` is not after either.  It holds for every pair of parsed values,
including the order-inconsistent number/text pairs. -/
theorem cmpPV_L1 (dir : Dir) (Z X W : ParsedValue) (iz ix iw : Int)
    (h1 : 0 < cmpPV dir Z X iz ix) (h2 : cmpPV dir Z W iz iw ≤ 0) :
    cmpPV dir X W ix iw ≤ 0 := by
  cases Z <;> cases X <;> cases W <;> simp only [cmpPV] at * <;> try omega
  case number.number.number z x w =>
    exact signCase_L1 jsNumCompare dir jsNumCompare_neg jsNumCompare_eq_zero
      (fun ha hb => jsNumCompare_trans ha hb) z x w iz ix iw h1 h2
  case text.text.text z x w =>
    exact signCase_L1 jsStrCompare dir jsStrCompare_neg jsStrCompare_eq_zero
      (fun ha hb => jsStrCompare_trans ha hb) z x w iz ix iw h1 h2

/-- `compareRows` factored through `cmpPV`. -/
theorem compareRows_def (dir : Dir) (col : Nat) (a b : Row) :
    compareRows dir col a b =
      cmpPV dir (parseExcelValue (cellText a col)) (parseExcelValue (cellText b col))
        (a.rowIndex : Int) (b.rowIndex : Int) := rfl

/-- Quasi-antisymmetry of the row comparator: a strictly positive
answer in one order forces a non-positive answer in the other (this
direction survives the number/text inconsistency, where both orders
are negative). -/
theorem compareRows_quasi_antisymm (dir : Dir) (col : Nat) (y x : Row)
    (h : 0 < compareRows dir col y x) : compareRows dir col x y ≤ 0 := by
  rw [compareRows_def] at h ⊢
  by_cases hm : mixedNT (parseExcelValue (cellText y col)) (parseExcelValue (cellText x col))
  · rw [cmpPV_mixed dir _ _ _ _ hm] at h
    omega
  · rw [cmpPV_antisymm dir _ _ _ _ (fun hc => hm (mixedNT_comm hc))]
    omega

/-- `cmpPV_L1` lifted to rows. -/
theorem compareRows_L1 (dir : Dir) (col : Nat) (z x w : Row)
    (h1 : 0 < compareRows dir col z x) (h2 : compareRows dir col z w ≤ 0) :
    compareRows dir col x w ≤ 0 :=
  cmpPV_L1 dir _ _ _ _ _ _ h1 h2

/-! ### The stable sort: permutation and ordering invariants -/

theorem mem_insertRow (cmp : Row → Row → Int) (x a : Row) :
    ∀ l : List Row, a ∈ insertRow cmp x l ↔ a = x ∨ a ∈ l := by
  intro l
  induction l with
  | nil => simp [insertRow]
  | cons y ys ih =>
    by_cases hc : 0 < cmp y x
    · simp [insertRow, if_pos hc]
    · simp [insertRow, if_neg hc, ih]
      tauto

theorem insertRow_perm (cmp : Row → Row → Int) (x : Row) :
    ∀ l : List Row, (insertRow cmp x l).Perm (x :: l) := by
  intro l
  induction l with
  | nil => exact List.Perm.refl _
  | cons y ys ih =>
    by_cases hc : 0 < cmp y x
    · rw [insertRow, if_pos hc]
    · rw [insertRow, if_neg hc]
      exact (ih.cons y).trans (List.Perm.swap x y ys)

theorem sortRows_perm_aux (cmp : Row → Row → Int) :
    ∀ (l acc : List Row),
      (l.foldl (fun acc x => insertRow cmp x acc) acc).Perm (l ++ acc) := by
  intro l
  induction l with
  | nil => intro acc; exact List.Perm.refl _
  | cons x xs ih =>
    intro acc
    have h1 := ih (insertRow cmp x acc)
    have h2 : (xs ++ insertRow cmp x acc).Perm (xs ++ (x :: acc)) :=
      (insertRow_perm cmp x acc).append_left xs
    have h3 : (xs ++ (x :: acc)).Perm (x :: (xs ++ acc)) := List.perm_middle
    exact (h1.trans h2).trans h3

/-- The sort permutes the rows (nothing is lost or duplicated). -/
theorem sortRows_perm (cmp : Row → Row → Int) (l : List Row) :
    (sortRows cmp l).Perm l := by
  have h := sortRows_perm_aux cmp l []
  simpa [sortRows] using h

theorem pairwise_insertRow (cmp : Row → Row → Int)
    (hA : ∀ y x, 0 < cmp y x → cmp x y ≤ 0)
    (hT : ∀ z x w, 0 < cmp z x → cmp z w ≤ 0 → cmp x w ≤ 0)
    (x : Row) : ∀ l : List Row, l.Pairwise (leC cmp) →
      (insertRow cmp x l).Pairwise (leC cmp) := by
  intro l
  induction l with
  | nil => intro _; simp [insertRow, List.Pairwise]
  | cons y ys ih =>
    intro h
    rcases List.pairwise_cons.mp h with ⟨h1, h2⟩
    by_cases hc : 0 < cmp y x
    · rw [insertRow, if_pos hc]
      refine List.pairwise_cons.mpr ⟨?_, h⟩
      intro w hw
      rcases List.mem_cons.mp hw with heq | hw'
      · subst heq
        exact hA _ x hc
      · exact hT y x w hc (h1 w hw')
    · rw [insertRow, if_neg hc]
      refine List.pairwise_cons.mpr ⟨?_, ih h2⟩
      intro w hw
      rcases (mem_insertRow cmp x w ys).mp hw with heq | hw'
      · subst heq
        exact le_of_not_lt (fun hlt => hc hlt)
      · exact h1 w hw'

theorem pairwise_sortRows_aux (cmp : Row → Row → Int)
    (hA : ∀ y x, 0 < cmp y x → cmp x y ≤ 0)
    (hT : ∀ z x w, 0 < cmp z x → cmp z w ≤ 0 → cmp x w ≤ 0) :
    ∀ (l acc : List Row), acc.Pairwise (leC cmp) →
      (l.foldl (fun acc x => insertRow cmp x acc) acc).Pairwise (leC cmp) := by
  intro l
  induction l with
  | nil => intro acc h; exact h
  | cons x xs ih =>
    intro acc h
    exact ih (insertRow cmp x acc) (pairwise_insertRow cmp hA hT x acc h)

/-- Every output of the sort is ordered under `leC`: for any two
positions `i < j`, the comparator does not order the row at `i`
strictly after the row at `j`. -/
theorem pairwise_sortRows (dir : Dir) (col : Nat) (l : List Row) :
    (sortRows (compareRows dir col) l).Pairwise (leC (compareRows dir col)) := by
  have h := pairwise_sortRows_aux (compareRows dir col)
    (compareRows_quasi_antisymm dir col)
    (compareRows_L1 dir col) l [] (List.Pairwise.nil)
  simpa [sortRows] using h

/-- Two positions of a sort output, read through `get?`, are ordered by
the comparator. -/
theorem sortRows_le_of_get? (dir : Dir) (col : Nat) (l : List Row)
    {i j : Nat} {ra rb : Row} (hij : i < j)
    (h1 : (sortRows (compareRows dir col) l).get? i = some ra)
    (h2 : (sortRows (compareRows dir col) l).get? j = some rb) :
    compareRows dir col ra rb ≤ 0 := by
  rcases List.get?_eq_some.mp h1 with ⟨hi, hgi⟩
  rcases List.get?_eq_some.mp h2 with ⟨hj, hgj⟩
  have h := List.pairwise_iff_get.mp (pairwise_sortRows dir col l) ⟨i, hi⟩ ⟨j, hj⟩ hij
  rw [hgi, hgj] at h
  exact h

/-- A permutation of rows preserves distinctness of the row tags. -/
theorem nodup_rowIndex_of_perm {l l' : List Row} (h : l'.Perm l)
    (hnd : (l.map Row.rowIndex).Nodup) : (l'.map Row.rowIndex).Nodup :=
  ((h.map Row.rowIndex).symm).nodup hnd

/-- In a list with distinct row tags, rows at distinct positions have
distinct tags. -/
theorem rowIndex_ne_of_get? {l : List Row} (hnd : (l.map Row.rowIndex).Nodup)
    {i j : Nat} {ra rb : Row} (hij : i ≠ j)
    (h1 : l.get? i = some ra) (h2 : l.get? j = some rb) :
    ra.rowIndex ≠ rb.rowIndex := by
  rcases List.get?_eq_some.mp h1 with ⟨hi, hgi⟩
  rcases List.get?_eq_some.mp h2 with ⟨hj, hgj⟩
  intro hcontra
  have hmi : (l.map Row.rowIndex).get ⟨i, by simpa using hi⟩ = ra.rowIndex := by
    simp [← hgi]
  have hmj : (l.map Row.rowIndex).get ⟨j, by simpa using hj⟩ = rb.rowIndex := by
    simp [← hgj]
  have : (⟨i, by simpa using hi⟩ : Fin (l.map Row.rowIndex).length) =
      ⟨j, by simpa using hj⟩ := by
    apply hnd.get_inj_iff.mp
    rw [hmi, hmj]
    exact hcontra
  exact hij (congrArg Fin.val this)

/-- Rows whose cells parse equal compare by row tag alone. -/
theorem compareRows_of_parse_eq {dir : Dir} {col : Nat} {a b : Row}
    (heq : parseExcelValue (cellText a col) = parseExcelValue (cellText b col)) :
    compareRows dir col a b = (a.rowIndex : Int) - (b.rowIndex : Int) := by
  rw [compareRows_def, heq]
  exact cmpPV_refl _ _ _ _

/-- Two orderings of the same rows that are both `Pairwise`-ordered by a
relation that is antisymmetric on those rows coincide. -/
theorem pairwise_perm_eq {le : Row → Row → Prop} :
    ∀ l₁ l₂ : List Row, l₁.Perm l₂ → l₁.Pairwise le → l₂.Pairwise le →
      (∀ a ∈ l₁, ∀ b ∈ l₁, le a b → le b a → a = b) → l₁ = l₂ := by
  intro l₁
  induction l₁ with
  | nil =>
    intro l₂ hp _ _ _
    exact (List.Perm.nil_eq hp).symm ▸ rfl
  | cons a t₁ ih =>
    intro l₂ hp h₁ h₂ hanti
    cases l₂ with
    | nil => exact absurd hp.symm (by simp)
    | cons b t₂ =>
      rcases List.pairwise_cons.mp h₁ with ⟨ha1, ht1⟩
      rcases List.pairwise_cons.mp h₂ with ⟨hb1, ht2⟩
      have hab : a = b := by
        have haml : a ∈ b :: t₂ := hp.mem_iff.mp (List.mem_cons_self a t₁)
        have hbml : b ∈ a :: t₁ := hp.symm.mem_iff.mp (List.mem_cons_self b t₂)
        rcases List.mem_cons.mp haml with h | hat₂
        · exact h
        · rcases List.mem_cons.mp hbml with h | hbt₁
          · exact h.symm
          · exact hanti a (List.mem_cons_self a t₁) b (List.mem_cons.mpr (Or.inr hbt₁))
              (ha1 b hbt₁) (hb1 a hat₂)
      subst hab
      have ht : t₁.Perm t₂ := hp.cons_inv
      have : t₁ = t₂ := by
        apply ih t₂ ht ht1 ht2
        intro x hx y hy hxy hyx
        exact hanti x (List.mem_cons.mpr (Or.inr hx)) y (List.mem_cons.mpr (Or.inr hy)) hxy hyx
      rw [this]

/-! ### The click handler -/

/-- A click on a table with a `<thead>` sorts the whole body with the
current direction for that column. -/
theorem click_body_thead (col : Nat) (ts : TableState) :
    (click true col ts).body = sortRows (compareRows (ts.sortState col) col) ts.body := rfl

/-- A click updates the direction map by toggling the clicked column. -/
theorem click_sortState (hasThead : Bool) (col : Nat) (ts : TableState) :
    (click hasThead col ts).sortState =
      fun c => if c = col then toggle (ts.sortState col) else ts.sortState c := rfl

/-- Any click leaves the body a permutation of what it was. -/
theorem click_body_perm (hasThead : Bool) (col : Nat) (ts : TableState) :
    ((click hasThead col ts).body).Perm ts.body := by
  cases hasThead
  · show (match ts.body with
      | [] => []
      | h :: rest => h :: sortRows (compareRows (ts.sortState col) col) rest).Perm ts.body
    cases ts.body with
    | nil => exact List.Perm.refl _
    | cons h rest => exact (sortRows_perm _ rest).cons h
  · exact sortRows_perm _ ts.body

/-- Prior clicks leave the body a permutation of the load-time body. -/
theorem applyClicks_body_perm (cols : List Nat) :
    ∀ ts : TableState, ((applyClicks cols ts).body).Perm ts.body := by
  induction cols with
  | nil => intro ts; exact List.Perm.refl _
  | cons c cs ih =>
    intro ts
    exact (ih (click true c ts)).trans (click_body_perm true c ts)

/-- The load-time tags of `tagRows` are exactly the row positions. -/
theorem tagRows_map_rowIndex (cellRows : List (List String)) :
    (tagRows cellRows).map Row.rowIndex = List.range cellRows.length := by
  rw [tagRows, List.map_map]
  have h : (Row.rowIndex ∘ fun p : Nat × List String =>
      ({ cells := p.2, rowIndex := p.1 } : Row)) = Prod.fst := rfl
  rw [h]
  simp

/-- Load-time tags are distinct. -/
theorem tagRows_nodup (cellRows : List (List String)) :
    ((tagRows cellRows).map Row.rowIndex).Nodup := by
  rw [tagRows_map_rowIndex]
  exact List.nodup_range _

/-- Distinct parsed values that are not a number/text pair never compare
to zero, whatever the row tags. -/
theorem cmpPV_ne_zero_of_parse_ne (dir : Dir) (A B : ParsedValue) (ia ib : Int)
    (h : ¬ mixedNT A B) (hAB : A ≠ B) : cmpPV dir A B ia ib ≠ 0 := by
  cases A <;> cases B <;> simp only [cmpPV] <;> try omega
  case number.number x y =>
    by_cases hxy : x = y
    · exact absurd (congrArg ParsedValue.number hxy) hAB
    · rw [if_pos hxy]
      cases dir
      · rw [if_neg (by decide : ¬ (Dir.asc = Dir.desc))]
        intro h0
        exact hxy ((jsNumCompare_eq_zero x y).mp h0)
      · rw [if_pos rfl]
        intro h0
        exact hxy (((jsNumCompare_eq_zero y x).mp h0).symm)
  case text.text s t =>
    by_cases hst : s = t
    · exact absurd (congrArg ParsedValue.text hst) hAB
    · rw [if_pos hst]
      cases dir
      · rw [if_neg (by decide : ¬ (Dir.asc = Dir.desc))]
        intro h0
        exact hst ((jsStrCompare_eq_zero s t).mp h0)
      · rw [if_pos rfl]
        intro h0
        exact hst (((jsStrCompare_eq_zero t s).mp h0).symm)
  case blank.blank =>
    exact absurd rfl hAB

/-! ### Claim theorems -/

/-- C1: the value parser maps "₹1,200" to the number 1200, "45%" to the
number 45, each of "—", "-" and "" to blank, and "Banana" to the
trimmed, lower-cased text "banana". -/
theorem parseExcelValue_examples :
    parseExcelValue "₹1,200" = ParsedValue.number (JsNum.finite 1200) ∧
    parseExcelValue "45%" = ParsedValue.number (JsNum.finite 45) ∧
    parseExcelValue "—" = ParsedValue.blank ∧
    parseExcelValue "-" = ParsedValue.blank ∧
    parseExcelValue "" = ParsedValue.blank ∧
    parseExcelValue "Banana" = ParsedValue.text "banana" :=
  ⟨by decide, by decide, by decide, by decide, by decide, by decide⟩

/-- C5: every column's direction state starts at `desc`, and three
successive clicks on the same column's header sort descending, then
ascending, then descending again, toggling the stored state each
time. -/
theorem direction_toggle_cycle (body : List Row) (col : Nat) :
    initState col = Dir.desc ∧
    (click true col ⟨body, initState⟩).body =
      sortRows (compareRows Dir.desc col) body ∧
    (click true col ⟨body, initState⟩).sortState col = Dir.asc ∧
    (click true col (click true col ⟨body, initState⟩)).body =
      sortRows (compareRows Dir.asc col) (click true col ⟨body, initState⟩).body ∧
    (click true col (click true col ⟨body, initState⟩)).sortState col = Dir.desc ∧
    (click true col (click true col (click true col ⟨body, initState⟩))).body =
      sortRows (compareRows Dir.desc col)
        (click true col (click true col ⟨body, initState⟩)).body := by
  refine ⟨rfl, rfl, ?_, ?_, ?_, ?_⟩ <;>
    simp [click, initState, toggle, click_sortState]

/-- C6: the comparator evaluated on the claim's failing column
["10", "abc", ""]: the number/text pair answers -1 in both argument
orders and in both directions, so the relative order of "10" and "abc"
after `rows.sort` is implementation-defined rather than number-first
(an engine that reverses a detected descending run outputs the text
first), while the blank cell compares consistently after both. -/
theorem type_precedence_failing_input :
    compareRows Dir.asc 0 ⟨["10"], 0⟩ ⟨["abc"], 1⟩ = -1 ∧
    compareRows Dir.asc 0 ⟨["abc"], 1⟩ ⟨["10"], 0⟩ = -1 ∧
    compareRows Dir.desc 0 ⟨["10"], 0⟩ ⟨["abc"], 1⟩ = -1 ∧
    compareRows Dir.desc 0 ⟨["abc"], 1⟩ ⟨["10"], 0⟩ = -1 ∧
    compareRows Dir.asc 0 ⟨["abc"], 1⟩ ⟨[""], 2⟩ = -1 ∧
    compareRows Dir.asc 0 ⟨[""], 2⟩ ⟨["abc"], 1⟩ = 1 ∧
    compareRows Dir.asc 0 ⟨["10"], 0⟩ ⟨[""], 2⟩ = -1 ∧
    compareRows Dir.asc 0 ⟨[""], 2⟩ ⟨["10"], 0⟩ = 1 :=
  ⟨by decide, by decide, by decide, by decide, by decide, by decide,
    by decide, by decide⟩

/-- C8: a row with no cell at the clicked column feeds the empty string
(the JS default parameter) to the total parser, which classifies it
blank, so the comparison is on a defined value. -/
theorem missing_cell_blank (r : Row) (col : Nat) (h : r.cells.length ≤ col) :
    cellText r col = "" ∧ parseExcelValue (cellText r col) = ParsedValue.blank := by
  have hc : cellText r col = "" := by
    unfold cellText
    exact List.getD_eq_default _ _ h
  refine ⟨hc, ?_⟩
  rw [hc]
  rfl

/-- C8 witness. -/
theorem missing_cell_blank_witness :
    cellText ⟨["x"], 0⟩ 3 = "" ∧
    parseExcelValue (cellText ⟨["x"], 0⟩ 3) = ParsedValue.blank :=
  missing_cell_blank ⟨["x"], 0⟩ 3 (by decide)

/-- C9: when the header row is embedded as the first body row (no
`<thead>`), a click keeps it at position 0 unsorted and only permutes
the remaining rows. -/
theorem embedded_header_fixed (st : Nat → Dir) (col : Nat) (h : Row) (rest : List Row) :
    (click false col ⟨h :: rest, st⟩).body =
      h :: sortRows (compareRows (st col) col) rest ∧
    (sortRows (compareRows (st col) col) rest).Perm rest :=
  ⟨rfl, sortRows_perm _ _⟩

/-- C10: a cell that trims to a non-blank string consisting only of ₹,
comma and % strips to the empty string, and the JS numeric coercion of
"" is 0, so the cell is classified as the number zero. -/
theorem symbols_only_parses_zero (s : String)
    (hne : jsTrim s ≠ "") (hd1 : jsTrim s ≠ "-") (hd2 : jsTrim s ≠ "—")
    (hall : ∀ c ∈ (jsTrim s).toList, c = '₹' ∨ c = ',' ∨ c = '%') :
    parseExcelValue s = ParsedValue.number (JsNum.finite 0) := by
  have hclean : stripSyms (jsTrim s) = "" := by
    unfold stripSyms
    have hfil : (jsTrim s).toList.filter (fun c => !(c = '₹' || c = ',' || c = '%')) = [] := by
      rw [List.filter_eq_nil_iff]
      intro c hc
      rcases hall c hc with h | h | h <;> simp [h]
    rw [hfil]
  simp only [parseExcelValue]
  rw [if_neg (by simp [hne, hd1, hd2])]
  rw [hclean]
  rfl

/-- C10 witness. -/
theorem symbols_only_parses_zero_witness :
    parseExcelValue "₹" = ParsedValue.number (JsNum.finite 0) :=
  symbols_only_parses_zero "₹" (by decide) (by decide) (by decide) (by decide)

/-- C3: after a header click on a table with a `<thead>` (any column,
any stored direction), blankness only ever appears further down: if the
row at an earlier output position parses blank at that column, so does
every row at a later position, i.e. blanks sort last either
direction. -/
theorem click_blanks_last (st : Nat → Dir) (body : List Row) (col i j : Nat)
    (ra rb : Row) (hij : i < j)
    (h1 : (click true col ⟨body, st⟩).body.get? i = some ra)
    (h2 : (click true col ⟨body, st⟩).body.get? j = some rb)
    (hblank : parseExcelValue (cellText ra col) = ParsedValue.blank) :
    parseExcelValue (cellText rb col) = ParsedValue.blank := by
  rw [click_body_thead] at h1 h2
  have hle := sortRows_le_of_get? (st col) col body hij h1 h2
  rw [compareRows_def, hblank] at hle
  exact cmpPV_blank_le hle

/-- C3 witness. -/
theorem click_blanks_last_witness :
    parseExcelValue (cellText ⟨["-"], 1⟩ 0) = ParsedValue.blank :=
  click_blanks_last initState (tagRows [["—"], ["-"]]) 0 0 1
    ⟨["—"], 0⟩ ⟨["-"], 1⟩ (by decide) (by decide) (by decide) (by decide)

/-- C2: the comparator evaluated on the failing body
[["5"], ["x"], ["5"]] (load tags 0, 1, 2) at the first, descending
click: every comparison between the text row and either tied number row
answers -1, in both argument orders, so to a run-detecting engine the
whole load-ordered body reads as strictly descending and is reversed,
emitting the tied "5" rows in reversed load order; the tie-break that
the claim (and the code's own stable-sort comment) relies on orders
them by load tag, tag 0 first. -/
theorem stable_ties_failing_input :
    compareRows Dir.desc 0 ⟨["x"], 1⟩ ⟨["5"], 0⟩ = -1 ∧
    compareRows Dir.desc 0 ⟨["5"], 0⟩ ⟨["x"], 1⟩ = -1 ∧
    compareRows Dir.desc 0 ⟨["5"], 2⟩ ⟨["x"], 1⟩ = -1 ∧
    compareRows Dir.desc 0 ⟨["x"], 1⟩ ⟨["5"], 2⟩ = -1 ∧
    compareRows Dir.desc 0 ⟨["5"], 0⟩ ⟨["5"], 2⟩ = -2 ∧
    compareRows Dir.desc 0 ⟨["5"], 2⟩ ⟨["5"], 0⟩ = 2 :=
  ⟨by decide, by decide, by decide, by decide, by decide, by decide⟩

/-- C4 fails as stated: a number-typed cell against a text-typed cell
gets a negative answer in both argument orders (the type-mismatch
branch returns `-1` whenever the first row is not blank), so the
comparator is not antisymmetric and not a strict total order. -/
theorem comparator_mixed_counterexample :
    compareRows Dir.asc 0 ⟨["10"], 0⟩ ⟨["abc"], 1⟩ = -1 ∧
    compareRows Dir.asc 0 ⟨["abc"], 1⟩ ⟨["10"], 0⟩ = -1 :=
  ⟨by decide, by decide⟩

/-- C4 (amended): for each fixed direction the comparator is a strict
total order on rows with distinct tags, as long as no comparison
opposes a number-typed cell to a text-typed cell: on such pairs it is
antisymmetric, never zero, and transitive; on a number/text pair it
answers negative in both argument orders. -/
theorem comparator_strict_total_order (dir : Dir) (col : Nat) :
    (∀ a b : Row,
      ¬ mixedNT (parseExcelValue (cellText a col)) (parseExcelValue (cellText b col)) →
      (compareRows dir col a b < 0 ↔ 0 < compareRows dir col b a)) ∧
    (∀ a b : Row, a.rowIndex ≠ b.rowIndex →
      ¬ mixedNT (parseExcelValue (cellText a col)) (parseExcelValue (cellText b col)) →
      compareRows dir col a b ≠ 0) ∧
    (∀ a b c : Row, a.rowIndex ≠ c.rowIndex →
      ¬ mixedNT (parseExcelValue (cellText a col)) (parseExcelValue (cellText b col)) →
      ¬ mixedNT (parseExcelValue (cellText a col)) (parseExcelValue (cellText c col)) →
      compareRows dir col a b < 0 → compareRows dir col b c < 0 →
      compareRows dir col a c < 0) ∧
    (∀ a b : Row,
      mixedNT (parseExcelValue (cellText a col)) (parseExcelValue (cellText b col)) →
      compareRows dir col a b < 0 ∧ compareRows dir col b a < 0) := by
  refine ⟨?_, ?_, ?_, ?_⟩
  · intro a b hm
    have h := cmpPV_antisymm dir _ _ ((a.rowIndex : Int)) ((b.rowIndex : Int)) hm
    rw [compareRows_def, compareRows_def, h]
    omega
  · intro a b hne hm
    rw [compareRows_def]
    apply cmpPV_ne_zero dir _ _ _ _ hm
    exact_mod_cast hne
  · intro a b c hac hmab hmac h1 h2
    have hba : 0 < compareRows dir col b a := by
      have h := cmpPV_antisymm dir _ _ ((a.rowIndex : Int)) ((b.rowIndex : Int)) hmab
      rw [compareRows_def] at h1
      rw [compareRows_def]
      omega
    have hle : compareRows dir col a c ≤ 0 :=
      compareRows_L1 dir col b a c hba (le_of_lt h2)
    have hne : compareRows dir col a c ≠ 0 := by
      rw [compareRows_def]
      apply cmpPV_ne_zero dir _ _ _ _ hmac
      exact_mod_cast hac
    omega
  · intro a b hm
    constructor
    · rw [compareRows_def, cmpPV_mixed dir _ _ _ _ hm]
      omega
    · rw [compareRows_def, cmpPV_mixed dir _ _ _ _ (mixedNT_comm hm)]
      omega

/-- C4 witness (for the amended statement): two numeric cells compare
antisymmetrically. -/
theorem comparator_strict_total_order_witness :
    compareRows Dir.asc 0 ⟨["3"], 0⟩ ⟨["5"], 1⟩ < 0 ↔
      0 < compareRows Dir.asc 0 ⟨["5"], 1⟩ ⟨["3"], 0⟩ :=
  (comparator_strict_total_order Dir.asc 0).1 ⟨["3"], 0⟩ ⟨["5"], 1⟩ (by decide)

/-- On a column whose cells parse to pairwise distinct values with no
number-typed and text-typed cell both present, the comparator is
consistent, so the sort result is the engine-independent stable order
and sorting ascending, then descending, then ascending yields the same
order as a single ascending sort. -/
theorem three_sorts_eq_single (col : Nat) (l : List Row)
    (hdist : l.Pairwise (fun a b =>
      parseExcelValue (cellText a col) ≠ parseExcelValue (cellText b col)))
    (hnomix : ¬ ((∃ a ∈ l, (parseExcelValue (cellText a col)).ptype = PType.number) ∧
      (∃ b ∈ l, (parseExcelValue (cellText b col)).ptype = PType.text))) :
    sortRows (compareRows Dir.asc col)
      (sortRows (compareRows Dir.desc col) (sortRows (compareRows Dir.asc col) l)) =
    sortRows (compareRows Dir.asc col) l := by
  have hperm : (sortRows (compareRows Dir.asc col)
      (sortRows (compareRows Dir.desc col) (sortRows (compareRows Dir.asc col) l))).Perm
      (sortRows (compareRows Dir.asc col) l) := by
    have p1 := sortRows_perm (compareRows Dir.asc col)
      (sortRows (compareRows Dir.desc col) (sortRows (compareRows Dir.asc col) l))
    have p2 := sortRows_perm (compareRows Dir.desc col) (sortRows (compareRows Dir.asc col) l)
    exact p1.trans p2
  have hmeml : ∀ x : Row,
      x ∈ sortRows (compareRows Dir.asc col)
        (sortRows (compareRows Dir.desc col) (sortRows (compareRows Dir.asc col) l)) →
      x ∈ l := by
    intro x hx
    have := (hperm.trans (sortRows_perm (compareRows Dir.asc col) l)).mem_iff.mp hx
    exact this
  have hanti : ∀ a ∈ sortRows (compareRows Dir.asc col)
        (sortRows (compareRows Dir.desc col) (sortRows (compareRows Dir.asc col) l)),
      ∀ b ∈ sortRows (compareRows Dir.asc col)
        (sortRows (compareRows Dir.desc col) (sortRows (compareRows Dir.asc col) l)),
      leC (compareRows Dir.asc col) a b → leC (compareRows Dir.asc col) b a → a = b := by
    intro a ha b hb hab hba
    by_contra hne
    have hal : a ∈ l := hmeml a ha
    have hbl : b ∈ l := hmeml b hb
    have hpne : parseExcelValue (cellText a col) ≠ parseExcelValue (cellText b col) := by
      have hsym : Symmetric (fun a b : Row =>
          parseExcelValue (cellText a col) ≠ parseExcelValue (cellText b col)) := by
        intro u v huv
        exact fun hh => huv hh.symm
      exact hdist.forall hsym hal hbl hne
    have hnm : ¬ mixedNT (parseExcelValue (cellText a col)) (parseExcelValue (cellText b col)) := by
      intro hm
      rcases hm with ⟨hm1, hm2⟩ | ⟨hm1, hm2⟩
      · exact hnomix ⟨⟨a, hal, hm1⟩, ⟨b, hbl, hm2⟩⟩
      · exact hnomix ⟨⟨b, hbl, hm2⟩, ⟨a, hal, hm1⟩⟩
    have hzero : compareRows Dir.asc col a b = 0 := by
      have h := cmpPV_antisymm Dir.asc _ _ ((a.rowIndex : Int)) ((b.rowIndex : Int)) hnm
      unfold leC at hab hba
      rw [compareRows_def] at hab hba ⊢
      omega
    have := cmpPV_ne_zero_of_parse_ne Dir.asc _ _
      ((a.rowIndex : Int)) ((b.rowIndex : Int)) hnm hpne
    rw [compareRows_def] at hzero
    exact this hzero
  exact pairwise_perm_eq _ _ hperm
    (pairwise_sortRows Dir.asc col _) (pairwise_sortRows Dir.asc col l) hanti

/-- A concrete instance of `three_sorts_eq_single` on a two-row numeric
column. -/
theorem three_sorts_eq_single_instance :
    sortRows (compareRows Dir.asc 0)
      (sortRows (compareRows Dir.desc 0)
        (sortRows (compareRows Dir.asc 0) (tagRows [["2"], ["1"]]))) =
    sortRows (compareRows Dir.asc 0) (tagRows [["2"], ["1"]]) :=
  three_sorts_eq_single 0 (tagRows [["2"], ["1"]]) (by decide) (by decide)
